import Mathlib

/-!
# A verification development for dbt's relation cache and node runner

This file gives a shallow embedding of two components of the dbt code base:

* `core/dbt/adapters/cache.py` — the `RelationsCache` that mirrors live
  database objects and their cross-references, with add / link / cascade-drop /
  rename operations;
* `core/dbt/node_runners.py` — the `BaseRunner` per-task state machine
  (`run_with_hooks`, `safe_run`, `compile_and_execute`, `on_skip`,
  `do_skip`, `_safe_release_connection`).

Python dictionaries are embedded as association lists (first match wins, one
binding per key in every reachable state), Python sets as duplicate-free
lists, and exceptions as explicit error values.  Wall-clock timestamps and
thread names, which the runner records for diagnostics only, are not modelled;
the timing *spans* (which phases ran) are.  Nondeterministic collaborator
behaviour (what `compile`, `execute` and `release_connection` do) is a
parameter of the runner model.

All definitions come first, then the theorems about the frozen claims.
-/

/-! ## Lower-casing of names

`cache.py` lower-cases every name with Python's `str.lower` inside `_lower`,
which forwards `None` unchanged.  A Python string is a sequence of characters
and `str.lower` lower-cases each one; `pyLower` is that, written on the
character data of a Lean `String`.
-/

def pyLower (s : String) : String := String.mk (s.data.map Char.toLower)

/-- A nullable name (Postgres databases/schemas/identifiers can be `None`). -/
abbrev Ident := Option String

/-- `_lower`: lower-case a nullable name, forwarding `None`. -/
def lowerId (v : Ident) : Ident := v.map pyLower

/-! ## Keys and cached relations -/

/-- The observable part of a `BaseRelation`: its path triple.  The cache never
looks at anything else of the opaque inner relation. -/
structure Relation where
  database : Ident
  schema : Ident
  identifier : Ident
deriving DecidableEq, Repr

/-- `_ReferenceKey`: the namedtuple `(database, schema, identifier)`. -/
structure ReferenceKey where
  database : Ident
  schema : Ident
  identifier : Ident
deriving DecidableEq, Repr

/-- `_make_key`: build a `_ReferenceKey` with lower-cased fields. -/
def make_key (r : Relation) : ReferenceKey :=
  ⟨lowerId r.database, lowerId r.schema, lowerId r.identifier⟩

/-- `_CachedRelation`: the opaque inner relation plus the keys of the
relations that refer to this one (the keys of the `referenced_by` dict). -/
structure CachedRelation where
  inner : Relation
  referenced_by : List ReferenceKey
deriving DecidableEq, Repr

/-- Property `database` of `_CachedRelation` (lower-cased inner field). -/
def CachedRelation.database (r : CachedRelation) : Ident := lowerId r.inner.database

/-- Property `schema` of `_CachedRelation` (lower-cased inner field). -/
def CachedRelation.schema (r : CachedRelation) : Ident := lowerId r.inner.schema

/-- Property `identifier` of `_CachedRelation` (lower-cased inner field). -/
def CachedRelation.identifier (r : CachedRelation) : Ident := lowerId r.inner.identifier

/-- `_CachedRelation.key`: `_make_key` applied to the (already lower-cased)
properties of the cached relation. -/
def CachedRelation.key (r : CachedRelation) : ReferenceKey :=
  ⟨lowerId r.database, lowerId r.schema, lowerId r.identifier⟩

/-- `_CachedRelation.is_referenced_by`. -/
def CachedRelation.is_referenced_by (r : CachedRelation) (k : ReferenceKey) : Bool :=
  k ∈ r.referenced_by

/-- `_CachedRelation.add_reference`: `referenced_by[referrer.key()] = referrer`.
A dict stores one binding per key, so a key already present is left in place. -/
def CachedRelation.add_reference (r : CachedRelation) (referrer : CachedRelation) :
    CachedRelation :=
  if referrer.key ∈ r.referenced_by then r
  else { r with referenced_by := r.referenced_by ++ [referrer.key] }

/-- `_CachedRelation.release_references`: drop every key of `keys` from
`referenced_by`; unknown keys are ignored. -/
def CachedRelation.release_references (r : CachedRelation) (keys : List ReferenceKey) :
    CachedRelation :=
  { r with referenced_by := r.referenced_by.filter (fun k => k ∉ keys) }

/-- `_CachedRelation.rename`: overwrite the inner relation's path triple with
the new relation's triple (`inner.incorporate(path=...)`). -/
def CachedRelation.renamed (r : CachedRelation) (new_relation : CachedRelation) :
    CachedRelation :=
  { r with inner := ⟨new_relation.inner.database, new_relation.inner.schema,
                     new_relation.inner.identifier⟩ }

/-- The cache-consistency exceptions `dbt.exceptions.raise_cache_inconsistent`
raises, one constructor per raise site reachable from the modelled code. -/
inductive CacheErr where
  /-- `in add_link, referenced link key ... not in cache!` -/
  | addLinkReferencedMissing
  /-- `in add_link, dependent link key ... not in cache!` -/
  | addLinkDependentMissing
  /-- `in rename, new key ... already in cache` -/
  | renameNewKeyExists
  /-- `in rename of ..., new name is in the cache already` (from `rename_key`) -/
  | renameKeyCollision
deriving DecidableEq, Repr

/-! ## Dict and set primitives

Python dicts become association lists (first binding wins; every reachable
state keeps one binding per key), Python sets become duplicate-free lists.
`dictDel`/`dictPop` return `none` on a missing key, the embedding of a raised
`KeyError`.
-/

def listInsert {α : Type} [DecidableEq α] (x : α) (l : List α) : List α :=
  if x ∈ l then l else l ++ [x]

def listRemove {α : Type} [DecidableEq α] (x : α) (l : List α) : List α :=
  l.filter (fun y => decide (y ≠ x))

def dictGet (k : ReferenceKey) :
    List (ReferenceKey × CachedRelation) → Option CachedRelation
  | [] => none
  | (k', v) :: rest => if k' = k then some v else dictGet k rest

def dictHas (k : ReferenceKey) (l : List (ReferenceKey × CachedRelation)) : Bool :=
  (dictGet k l).isSome

/-- Dict assignment `d[k] = v`: replace the binding in place, else append. -/
def dictSet (k : ReferenceKey) (v : CachedRelation) :
    List (ReferenceKey × CachedRelation) → List (ReferenceKey × CachedRelation)
  | [] => [(k, v)]
  | (k', v') :: rest =>
    if k' = k then (k, v) :: rest else (k', v') :: dictSet k v rest

/-- `d.setdefault(k, v)`: insert only when the key is absent. -/
def dictSetdefault (k : ReferenceKey) (v : CachedRelation)
    (l : List (ReferenceKey × CachedRelation)) : List (ReferenceKey × CachedRelation) :=
  if dictHas k l then l else l ++ [(k, v)]

/-- `d.pop(k)`: the removed value and the remaining dict; `none` on `KeyError`. -/
def dictPop (k : ReferenceKey) :
    List (ReferenceKey × CachedRelation) →
    Option (CachedRelation × List (ReferenceKey × CachedRelation))
  | [] => none
  | (k', v) :: rest =>
    if k' = k then some (v, rest)
    else (dictPop k rest).map (fun p => (p.1, (k', v) :: p.2))

/-- `del d[k]`: `none` on `KeyError`. -/
def dictDel (k : ReferenceKey) (l : List (ReferenceKey × CachedRelation)) :
    Option (List (ReferenceKey × CachedRelation)) :=
  (dictPop k l).map Prod.snd

/-! ## The RelationsCache state

The single reentrant lock of the Python class serializes every operation, so
each public operation is a whole-state transition; the lock itself has no
observable content beyond that and is not part of the state.
-/

/-- `RelationsCache`: the relations dict and the known-schemas set (pairs of
lower-cased database and schema names). -/
structure RelationsCache where
  relations : List (ReferenceKey × CachedRelation)
  schemas : List (Ident × Ident)
deriving DecidableEq, Repr

/-- The empty cache (`__init__`). -/
def RelationsCache.empty : RelationsCache := ⟨[], []⟩

/-- `add_schema`: add the lower-cased pair to the set of known schemas. -/
def RelationsCache.add_schema (s : RelationsCache) (database schema : Ident) :
    RelationsCache :=
  { s with schemas := listInsert (lowerId database, lowerId schema) s.schemas }

/-- `remove_schema`: discard the lower-cased pair; absent pairs are ignored. -/
def RelationsCache.remove_schema (s : RelationsCache) (database schema : Ident) :
    RelationsCache :=
  { s with schemas := listRemove (lowerId database, lowerId schema) s.schemas }

/-- `update_schemas`: add every pair of the iterable. -/
def RelationsCache.update_schemas (s : RelationsCache) (pairs : List (Ident × Ident)) :
    RelationsCache :=
  pairs.foldl (fun acc p => acc.add_schema p.1 p.2) s

/-- `__contains__`: case-insensitive known-schema test. -/
def RelationsCache.contains_schema (s : RelationsCache) (database schema : Ident) : Bool :=
  decide ((lowerId database, lowerId schema) ∈ s.schemas)

/-- `_setdefault`: register the relation's schema, then `setdefault` the
relation under its key.  (The Python return value is unused by the modelled
callers.) -/
def RelationsCache.setdefault (s : RelationsCache) (relation : CachedRelation) :
    RelationsCache :=
  let s' := s.add_schema relation.database relation.schema
  { s' with relations := dictSetdefault relation.key relation s'.relations }

/-- `add`: wrap the relation in a fresh `_CachedRelation` (empty
`referenced_by`) and `_setdefault` it. -/
def RelationsCache.add (s : RelationsCache) (relation : Relation) : RelationsCache :=
  s.setdefault ⟨relation, []⟩

/-- `_add_link`: look up both keys (consistency error when either is absent)
and record the back-reference on the referenced entry. -/
def RelationsCache.add_link_locked (s : RelationsCache)
    (referenced_key dependent_key : ReferenceKey) : RelationsCache × Option CacheErr :=
  match dictGet referenced_key s.relations with
  | none => (s, some .addLinkReferencedMissing)
  | some referenced =>
    match dictGet dependent_key s.relations with
    | none => (s, some .addLinkDependentMissing)
    | some dependent =>
      ({ s with relations :=
          dictSet referenced_key (referenced.add_reference dependent) s.relations },
       none)

/-- `add_link`: when the referenced relation's schema is not a known schema
the link is silently skipped (assumed external relation); otherwise defer to
`_add_link` under the lock. -/
def RelationsCache.add_link (s : RelationsCache) (referenced dependent : Relation) :
    RelationsCache × Option CacheErr :=
  let referenced_key := make_key referenced
  if ¬ (s.contains_schema referenced_key.database referenced_key.schema) then
    (s, none)
  else
    let dependent_key := make_key dependent
    s.add_link_locked referenced_key dependent_key

/-! ## Cascade drop

`_CachedRelation.collect_consequences` is plain recursion over the
`referenced_by` edges — the Python has no visited set.  The recursion depth is
made explicit with a `fuel` argument; `none` is the embedding of a recursion
that has not terminated within the given depth (Python: unbounded recursion
ending in `RecursionError`).  The recursion follows the stored referrer
entries, which live in the single `relations` arena under their keys.
-/

/-- Union of two lists viewed as sets (`set.update`): keep the left list,
append the members of the right list not already present. -/
def listUnion {α : Type} [DecidableEq α] (a b : List α) : List α :=
  a ++ b.filter (fun y => decide (y ∉ a))

/-- The `referenced_by` keys of the entry stored under `k` (no entry: none to
follow). -/
def referrer_keys (s : RelationsCache) (k : ReferenceKey) : List ReferenceKey :=
  match dictGet k s.relations with
  | some r => r.referenced_by
  | none => []

/-- The recursion of `collect_consequences` together with its
`for relation in self.referenced_by.values()` loop, written as one function
structural in the call-depth budget: `.inl k` is one call
(`{self.key()}` unioned with the consequences of every referrer), `.inr ks`
the loop over the remaining referrers.  `none` embeds a recursion that does
not finish within the budget; the Python recursion is unbounded. -/
def collect_step (s : RelationsCache) :
    Nat → ReferenceKey ⊕ List ReferenceKey → Option (List ReferenceKey)
  | 0, _ => none
  | fuel + 1, .inl k =>
    (collect_step s fuel (.inr (referrer_keys s k))).map (fun rest => listUnion [k] rest)
  | _ + 1, .inr [] => some []
  | fuel + 1, .inr (k :: ks) => do
    let a ← collect_step s fuel (.inl k)
    let b ← collect_step s fuel (.inr ks)
    pure (listUnion a b)

/-- `_CachedRelation.collect_consequences` on the entry keyed `k`, with
call-depth budget `fuel`. -/
def collect_consequences (s : RelationsCache) (fuel : Nat) (k : ReferenceKey) :
    Option (List ReferenceKey) :=
  collect_step s fuel (.inl k)

/-- The `for key in keys: del self.relations[key]` loop of `_remove_refs`
(`none` embeds a `KeyError`). -/
def delAll : List ReferenceKey → List (ReferenceKey × CachedRelation) →
    Option (List (ReferenceKey × CachedRelation))
  | [], l => some l
  | k :: ks, l => (dictDel k l).bind (delAll ks)

/-- `_remove_refs`: delete every entry of `keys` from the dict, then release
the keys from every remaining entry's `referenced_by`. -/
def RelationsCache.remove_refs (s : RelationsCache) (keys : List ReferenceKey) :
    Option RelationsCache :=
  (delAll keys s.relations).map (fun rels =>
    { s with relations := rels.map (fun p => (p.1, p.2.release_references keys)) })

/-- `_drop_cascade_relation`: a missing key is a logged no-op, otherwise
collect the consequence set and remove it. -/
def drop_cascade_relation (fuel : Nat) (s : RelationsCache) (dropped : ReferenceKey) :
    Option RelationsCache :=
  if ¬ dictHas dropped s.relations then some s
  else (collect_consequences s fuel dropped).bind (fun cons => s.remove_refs cons)

/-- `drop`: make the key and cascade-drop it under the lock. -/
def RelationsCache.drop (s : RelationsCache) (fuel : Nat) (relation : Relation) :
    Option RelationsCache :=
  drop_cascade_relation fuel s (make_key relation)

/-! ## Rename -/

/-- A raised exception of the cache: a consistency error or a `KeyError`. -/
inductive CacheExc where
  | inconsistent (e : CacheErr)
  | keyError
deriving DecidableEq, Repr

/-- `_CachedRelation.rename_key`: error when the new key is already a
referrer; no-op when the old key is not; otherwise move the binding. -/
def CachedRelation.rename_key (r : CachedRelation) (old_key new_key : ReferenceKey) :
    Except CacheErr CachedRelation :=
  if new_key ∈ r.referenced_by then .error .renameKeyCollision
  else if old_key ∉ r.referenced_by then .ok r
  else .ok { r with referenced_by := (listRemove old_key r.referenced_by) ++ [new_key] }

/-- The `for cached in self.relations.values(): if cached.is_referenced_by
(old_key): cached.rename_key(...)` loop of `_rename_relation`.  On an error
the loop aborts: earlier entries keep their rewritten references, later
entries are untouched. -/
def rename_refs_loop (old_key new_key : ReferenceKey) :
    List (ReferenceKey × CachedRelation) →
    List (ReferenceKey × CachedRelation) × Option CacheErr
  | [] => ([], none)
  | (k, r) :: rest =>
    if r.is_referenced_by old_key then
      match r.rename_key old_key new_key with
      | .error e => ((k, r) :: rest, some e)
      | .ok r' =>
        let p := rename_refs_loop old_key new_key rest
        ((k, r') :: p.1, p.2)
    else
      let p := rename_refs_loop old_key new_key rest
      ((k, r) :: p.1, p.2)

/-- `_rename_relation`: pop the old entry, rewrite its inner name, rewrite the
references of every other entry, store it under the new key, then drop the old
schema pair and add the new one. -/
def RelationsCache.rename_relation (s : RelationsCache) (old_key : ReferenceKey)
    (new_relation : CachedRelation) : RelationsCache × Option CacheExc :=
  match dictPop old_key s.relations with
  | none => (s, some .keyError)
  | some (relation, rest) =>
    let relation := relation.renamed new_relation
    let new_key := new_relation.key
    let p := rename_refs_loop old_key new_key rest
    match p.2 with
    | some e => ({ s with relations := p.1 }, some (.inconsistent e))
    | none =>
      let s1 : RelationsCache := { s with relations := dictSet new_key relation p.1 }
      let s2 := s1.remove_schema old_key.database old_key.schema
      (s2.add_schema new_key.database new_key.schema, none)

/-- `_check_rename_constraints`: error when the new key exists; `false` (treat
as a temporary table) when the old key is absent; `true` otherwise. -/
def RelationsCache.check_rename_constraints (s : RelationsCache)
    (old_key new_key : ReferenceKey) : Except CacheErr Bool :=
  if dictHas new_key s.relations then .error .renameNewKeyExists
  else if ¬ dictHas old_key s.relations then .ok false
  else .ok true

/-- `rename`: check the constraints under the lock; on `true` do the real
rename, on `false` degrade to registering the new relation (`_setdefault`). -/
def RelationsCache.rename (s : RelationsCache) (old new : Relation) :
    RelationsCache × Option CacheExc :=
  let old_key := make_key old
  let new_key := make_key new
  match s.check_rename_constraints old_key new_key with
  | .error e => (s, some (.inconsistent e))
  | .ok true => s.rename_relation old_key ⟨new, []⟩
  | .ok false => (s.setdefault ⟨new, []⟩, none)

/-- `get_relations`: the inner descriptors under the (case-insensitively)
given schema.  The defensive `None in results` consistency check of the
Python cannot fire in the embedding, where every stored entry carries an
inner relation. -/
def RelationsCache.get_relations (s : RelationsCache) (database schema : Ident) :
    List Relation :=
  let schema := lowerId schema
  ((s.relations.map Prod.snd).filter (fun r =>
    decide (r.schema = lowerId schema) && decide (r.database = lowerId database))).map
    CachedRelation.inner

/-- `clear`: drop all state. -/
def RelationsCache.clear (_s : RelationsCache) : RelationsCache := ⟨[], []⟩

/-! ## The node runner (`node_runners.py`)

The runner drives one task attempt.  Its collaborators — the adapter's
`acquire_connection` and `release_connection` and the subclass
`compile`/`execute` implementations — are external; a `Behavior` value fixes
what each of them does during the attempt (succeed with a value, or raise).
`acquire_connection` is called inside the `try` of `safe_run`, so an
exception it raises is caught and classified like any other; the before/after
reporting hooks are bookkeeping calls with no failure mode relevant to the
modelled control flow.  Phases actually entered are recorded in a trace
list.
-/

/-- A graph node as the runner sees it. -/
structure Node where
  is_ephemeral_model : Bool
  unique_id : String
deriving DecidableEq, Repr

/-- The runner phases a single attempt can enter. -/
inductive Phase where
  | beforeHook
  | compilePhase
  | executePhase
  | afterHook
deriving DecidableEq, Repr

/-- `RunModelResult`: one attempt's immutable outcome record.  Wall-clock
`execution_time` and the worker `thread_id` are diagnostics-only environment
readings and are not modelled; the timing spans are kept as the phases they
cover. -/
structure RunModelResult where
  node : Option Node
  error : Option String
  skip : Bool
  status : Option String
  fail : Option Bool
  warn : Option Bool
  timing : List Phase
deriving DecidableEq, Repr

/-- `ExecutionContext`: the per-attempt mutable state. -/
structure ExecutionContext where
  timing : List Phase
  node : Option Node
deriving DecidableEq, Repr

/-- The classified exceptions of §7: compilation/user, runtime/database,
internal engine, and unclassified. -/
inductive DbtError where
  | compilation (msg : String)
  | runtime (msg : String)
  | internal (msg : String)
  | generic (msg : String)
deriving DecidableEq, Repr

/-- `handle_exception`: every handler logs differently but returns `str(e)`
as the error text. -/
def handle_exception (e : DbtError) : String :=
  match e with
  | .compilation m => m
  | .runtime m => m
  | .internal m => m
  | .generic m => m

/-- What the external collaborators do during one attempt, in call order:
`acquire_connection` (`none` = returned, `some e` = raised `e`), `compile`,
`run`/`execute`, and `release_connection` (`none` = released, `some msg` =
raised with text `msg`). -/
structure Behavior where
  acquireOutcome : Option DbtError
  compileOutcome : Except DbtError Node
  executeOutcome : Except DbtError RunModelResult
  releaseOutcome : Option String
deriving Repr

/-- `BaseRunner`: the task node and the transient skip state.  (`config`,
`adapter` and the position indices feed only logging and the `Behavior`.) -/
structure BaseRunner where
  node : Node
  skip : Bool
  skip_cause : Option RunModelResult
deriving DecidableEq, Repr

/-- A Python exception escaping a runner method that the code does not
catch. -/
inductive PyError where
  /-- `AttributeError`: reading `.error` off `result = None` in `safe_run`'s
  `finally` block. -/
  | attributeErrorNoneHasNoError
deriving DecidableEq, Repr

/-- `_build_run_result` via `error_result`: an `'ERROR'`-status record with
empty timing. -/
def error_result (node : Option Node) (error : String) : RunModelResult :=
  { node := node, error := some error, skip := false, status := some "ERROR",
    fail := none, warn := none, timing := [] }

/-- `_build_run_result` via `ephemeral_result`: no error, no status. -/
def ephemeral_result (node : Option Node) (timing : List Phase) : RunModelResult :=
  { node := node, error := none, skip := false, status := none, fail := none,
    warn := none, timing := timing }

/-- `_build_run_result` via `from_run_result`: copy the execution result,
stamping the accumulated timing. -/
def from_run_result (r : RunModelResult) (timing : List Phase) : RunModelResult :=
  { r with timing := timing }

/-- `compile_and_execute`: acquire the connection (an exception here
propagates to `safe_run`'s handler before any phase is entered), compile
(timed), and — unless the compiled node is ephemeral — execute (timed).
Returns the raised or returned outcome, the context as mutated so far, and
the phases entered. -/
def compile_and_execute (node : Node) (b : Behavior) :
    Except DbtError (Option RunModelResult) × ExecutionContext × List Phase :=
  let ctx : ExecutionContext := ⟨[], some node⟩
  match b.acquireOutcome with
  | some e => (.error e, ctx, [])
  | none =>
    match b.compileOutcome with
    | .error e => (.error e, ctx, [.compilePhase])
    | .ok compiled =>
      let ctx : ExecutionContext := ⟨[.compilePhase], some compiled⟩
      if compiled.is_ephemeral_model then (.ok none, ctx, [.compilePhase])
      else
        match b.executeOutcome with
        | .error e => (.error e, ctx, [.compilePhase, .executePhase])
        | .ok result =>
          (.ok (some result), ⟨[.compilePhase, .executePhase], result.node⟩,
           [.compilePhase, .executePhase])

/-- `_safe_release_connection`: release, catching any exception and returning
its string; `none` when the release succeeded. -/
def safe_release_connection (b : Behavior) : Option String :=
  b.releaseOutcome

/-- The tail of `safe_run`: an error makes an error result; a real execution
outcome is restamped; otherwise (ephemeral, no execute phase) an ephemeral
result. -/
def finish_result (ctx : ExecutionContext) (error : Option String)
    (result : Option RunModelResult) : RunModelResult :=
  match error with
  | some e => error_result ctx.node e
  | none =>
    match result with
    | some r => from_run_result r ctx.timing
    | none => ephemeral_result ctx.node ctx.timing

/-- `safe_run`: run `compile_and_execute`, catching and classifying any
exception; always release the connection in the `finally` block.  When the
release failed the Python reads `result.error` — an `AttributeError` when
`result` is `None` — and overrides the error only when `result.error` was
`None`.  Exactly one result is produced unless that `AttributeError`
escapes. -/
def safe_run (node : Node) (b : Behavior) :
    Except PyError RunModelResult × List Phase :=
  let out := compile_and_execute node b
  let ctx := out.2.1
  let phases := out.2.2
  let error : Option String :=
    match out.1 with
    | .error e => some (handle_exception e)
    | .ok _ => none
  let result : Option RunModelResult :=
    match out.1 with
    | .ok r => r
    | .error _ => none
  match safe_release_connection b with
  | none => (.ok (finish_result ctx error result), phases)
  | some exc_str =>
    match result with
    | none => (.error .attributeErrorNoneHasNoError, phases)
    | some r =>
      let error := if r.error = none then some exc_str else error
      (.ok (finish_result ctx error result), phases)

/-- `do_skip`: mark the runner to short-circuit, storing the cause. -/
def BaseRunner.do_skip (r : BaseRunner) (cause : Option RunModelResult) : BaseRunner :=
  { r with skip := true, skip_cause := cause }

/-- `_skip_caused_by_ephemeral_failure`: the stored cause exists, has a node,
and that node is ephemeral. -/
def BaseRunner.skip_caused_by_ephemeral_failure (r : BaseRunner) : Bool :=
  match r.skip_cause with
  | none => false
  | some c =>
    match c.node with
    | none => false
    | some n => n.is_ephemeral_model

/-- The escalated error text `on_skip` attaches for an ephemeral-caused
skip. -/
def skip_error_text (r : BaseRunner) : String :=
  "Compilation Error in " ++ r.node.unique_id ++
    ", caused by compilation error in referenced ephemeral model " ++
    (match r.skip_cause with
     | some c =>
       match c.node with
       | some n => n.unique_id
       | none => ""
     | none => "")

/-- `on_skip`: a skip result; for a non-ephemeral node whose skip was caused
by an ephemeral dependency's failure, an error is set so the run exits with
an error code. -/
def BaseRunner.on_skip (r : BaseRunner) : RunModelResult :=
  let error : Option String :=
    if r.node.is_ephemeral_model then none
    else if r.skip_caused_by_ephemeral_failure then some (skip_error_text r)
    else none
  { node := some r.node, error := error, skip := true, status := none,
    fail := none, warn := none, timing := [] }

/-- `run_with_hooks`: short-circuit a pre-marked skip without any phase;
otherwise before-hook (suppressed for ephemeral nodes), `safe_run`,
after-hook (suppressed for ephemeral nodes). -/
def BaseRunner.run_with_hooks (r : BaseRunner) (b : Behavior) :
    Except PyError RunModelResult × List Phase :=
  if r.skip then (.ok r.on_skip, [])
  else
    let pre := if r.node.is_ephemeral_model then [] else [Phase.beforeHook]
    let out := safe_run r.node b
    match out.1 with
    | .error e => (.error e, pre ++ out.2)
    | .ok result =>
      let post := if r.node.is_ephemeral_model then [] else [Phase.afterHook]
      (.ok result, pre ++ out.2 ++ post)

/-! ## The reference graph of a cache state -/

/-- One reference edge: `b` is recorded in `referenced_by` of the entry keyed
`a` (so dropping `a` cascades to `b`). -/
def Edge (s : RelationsCache) (a b : ReferenceKey) : Prop :=
  b ∈ referrer_keys s a

/-- Transitive linkage along registered reference edges (reflexive closure). -/
def Reach (s : RelationsCache) : ReferenceKey → ReferenceKey → Prop :=
  Relation.ReflTransGen (Edge s)

/-- The reference graph has no cycle. -/
def Acyc (s : RelationsCache) : Prop :=
  ∀ k, ¬ Relation.TransGen (Edge s) k k

/-- Well-formedness of a cache state, as a Python dict guarantees and the
operations maintain: one binding per key, and every recorded referrer key is
itself registered. -/
abbrev WfCache (s : RelationsCache) : Prop :=
  (s.relations.map Prod.fst).Nodup ∧
    ∀ p ∈ s.relations, ∀ k ∈ p.2.referenced_by, dictHas k s.relations = true

/-- The consequence collection started at `k` finishes at no depth: the
embedding of an unboundedly recursing (`RecursionError`) Python call. -/
def collect_diverges (s : RelationsCache) (k : ReferenceKey) : Prop :=
  ∀ fuel, collect_consequences s fuel k = none

/-- `drop` finishes at no recursion depth. -/
def drop_diverges (s : RelationsCache) (relation : Relation) : Prop :=
  ∀ fuel, s.drop fuel relation = none

/-! ## Exactness of the cascade removal -/

/-- The state `_remove_refs` produces when no `KeyError` fires: the listed
keys deleted from the dict, and released from every remaining entry. -/
def removed_state (s : RelationsCache) (keys : List ReferenceKey) : RelationsCache :=
  RelationsCache.mk
    ((s.relations.filter (fun p => decide (p.1 ∉ keys))).map
      (fun p => (p.1, p.2.release_references keys)))
    s.schemas

/-! ## The schema invariant -/

/-- The invariant of §3: every registered relation's (lower-cased) database
and schema pair is a known schema. -/
abbrev SchInv (s : RelationsCache) : Prop :=
  ∀ p ∈ s.relations, (p.2.database, p.2.schema) ∈ s.schemas

/-! ## The successful rename path -/

/-- The rewritten form of an entry after `rename_key` moved `old_key` to
`new_key`. -/
def rewritten_entry (old_key new_key : ReferenceKey) (r : CachedRelation) :
    CachedRelation :=
  if old_key ∈ r.referenced_by then
    CachedRelation.mk r.inner (listRemove old_key r.referenced_by ++ [new_key])
  else r

/-- The state a successful `_rename_relation` produces: the popped entry
renamed and stored under the new key, every other entry's references
rewritten, the old schema pair removed unconditionally, the new one added. -/
def renamed_state (s : RelationsCache) (old_key : ReferenceKey)
    (nrel rel0 : CachedRelation) : RelationsCache :=
  RelationsCache.mk
    (dictSet nrel.key (rel0.renamed nrel)
      ((s.relations.filter (fun p => decide (p.1 ≠ old_key))).map
        (fun p => (p.1, rewritten_entry old_key nrel.key p.2))))
    (listInsert (lowerId nrel.key.database, lowerId nrel.key.schema)
      (listRemove (lowerId old_key.database, lowerId old_key.schema) s.schemas))

/-! ## Concrete fixture states for the claim witnesses and counterexamples -/

def fixA : Relation := ⟨some "db", some "s", some "alpha"⟩

def fixB : Relation := ⟨some "db", some "s", some "beta"⟩

def fixMissing : Relation := ⟨some "db", some "s", some "gamma"⟩

def fixOutside : Relation := ⟨some "db", some "elsewhere", some "ext"⟩

/-- Two registered relations in one known schema, no links. -/
def fix_state : RelationsCache :=
  RelationsCache.mk
    [(make_key fixA, ⟨fixA, []⟩), (make_key fixB, ⟨fixB, []⟩)]
    [(some "db", some "s")]

def loopyRel : Relation := ⟨some "db", some "s", some "loopy"⟩

/-- A self-referencing relation, as `add_link relation relation` builds. -/
def loopy_state : RelationsCache :=
  RelationsCache.mk [(make_key loopyRel, ⟨loopyRel, [make_key loopyRel]⟩)]
    [(some "db", some "s")]

def loopxRel : Relation := ⟨some "db", some "s", some "loopx"⟩

def loopx_state : RelationsCache :=
  RelationsCache.mk [(make_key loopxRel, ⟨loopxRel, [make_key loopxRel]⟩)]
    [(some "db", some "s")]

def renOld : Relation := ⟨some "db", some "s1", some "old"⟩

def renKeep : Relation := ⟨some "db", some "s1", some "keep"⟩

def renNew : Relation := ⟨some "db", some "s2", some "new"⟩

/-- `renKeep` records `renOld` as a referrer; both live in schema `s1`. -/
def ren_state : RelationsCache :=
  RelationsCache.mk
    [(make_key renOld, ⟨renOld, []⟩),
     (make_key renKeep, ⟨renKeep, [make_key renOld]⟩)]
    [(some "db", some "s1")]

def invD : Relation := ⟨some "db", some "t", some "dd"⟩

def invE : Relation := ⟨some "db", some "t", some "ee"⟩

def invF : Relation := ⟨some "db", some "t2", some "ff"⟩

/-- Two relations sharing schema `t`; renaming one away from `t` removes the
schema pair `t` even though the other still lives there. -/
def inv_state : RelationsCache :=
  RelationsCache.mk
    [(make_key invD, ⟨invD, []⟩), (make_key invE, ⟨invE, []⟩)]
    [(some "db", some "t")]

/-- A known schema with no registered relations. -/
def bare_schema_state : RelationsCache :=
  RelationsCache.mk [] [(some "db", some "sx")]

def bareRef : Relation := ⟨some "db", some "sx", some "r"⟩

def bareDep : Relation := ⟨some "db", some "sx", some "d"⟩

def runEphNode : Node := ⟨true, "model.eph_dep"⟩

def runRegNode : Node := ⟨false, "model.task"⟩

def failedEphResult : RunModelResult :=
  ⟨some runEphNode, some "compile failed", false, some "ERROR", none, none, []⟩

def failedRegResult : RunModelResult :=
  ⟨some runRegNode, some "db error", false, some "ERROR", none, none, []⟩

def okRegResult : RunModelResult :=
  ⟨some runRegNode, none, false, some "SUCCESS", none, none, []⟩

def benignBehavior : Behavior := ⟨none, .ok runRegNode, .ok okRegResult, none⟩

def ephFailBehavior : Behavior :=
  ⟨none, .error (.compilation "bad jinja"), .ok okRegResult, none⟩

def releaseFailEphBehavior : Behavior :=
  ⟨none, .ok runEphNode, .ok okRegResult, some "release failed"⟩

def releaseFailRaiseBehavior : Behavior :=
  ⟨none, .error (.compilation "boom"), .ok okRegResult, some "release failed"⟩

def releaseFailOkBehavior : Behavior :=
  ⟨none, .ok runRegNode, .ok okRegResult, some "release failed"⟩

/-- `acquire_connection` raises; compile would have succeeded. -/
def acqFailBehavior : Behavior :=
  ⟨some (.runtime "could not acquire connection"), .ok runEphNode, .ok okRegResult, none⟩

/-- The error result `safe_run` returns for an ephemeral node whose
connection acquisition raised: a failure of the dependency that is not a
compile failure. -/
def acqFailEphResult : RunModelResult :=
  error_result (some runEphNode) "could not acquire connection"

/-- The plain skip result of an ephemeral runner (`on_skip` with the node
ephemeral): `skip=True`, no error — an error-free cause. -/
def ephSkipResult : RunModelResult :=
  ⟨some runEphNode, none, true, none, none, none, []⟩

def cexOld : Relation := ⟨some "db", some "p1", some "co"⟩

def cexKeep : Relation := ⟨some "db", some "p1", some "ck"⟩

def cexNew : Relation := ⟨some "db", some "p2", some "cn"⟩

/-- Two relations in schema `p1`; `cexOld` will be renamed into `p2`. -/
def cex5_state : RelationsCache :=
  RelationsCache.mk
    [(make_key cexOld, ⟨cexOld, []⟩), (make_key cexKeep, ⟨cexKeep, []⟩)]
    [(some "db", some "p1")]

/-! ## Theorems -/

theorem char_toNat_ofNat_small (n : Nat) (h : n < 0xd800) : (Char.ofNat n).toNat = n := by
  have hv : n.isValidChar := Or.inl h
  simp only [Char.ofNat, dif_pos hv]
  rfl

theorem char_toLower_idem (c : Char) : c.toLower.toLower = c.toLower := by
  unfold Char.toLower
  by_cases h : c.toNat ≥ 65 ∧ c.toNat ≤ 90
  · have hv : (Char.ofNat (c.toNat + 32)).toNat = c.toNat + 32 :=
      char_toNat_ofNat_small _ (by omega)
    simp only [if_pos h, hv]
    rw [if_neg (by omega)]
  · simp only [if_neg h]

theorem pyLower_idem (s : String) : pyLower (pyLower s) = pyLower s := by
  simp only [pyLower, List.map_map]
  congr 1
  exact List.map_congr_left (fun c _ => char_toLower_idem c)

@[simp] theorem lowerId_idem (v : Ident) : lowerId (lowerId v) = lowerId v := by
  cases v with
  | none => rfl
  | some s => simp [lowerId, pyLower_idem]

@[simp] theorem CachedRelation.key_eq (r : CachedRelation) :
    r.key = make_key r.inner := by
  simp [CachedRelation.key, make_key, CachedRelation.database, CachedRelation.schema,
    CachedRelation.identifier]

/-! ## Helper lemmas on the list primitives -/

theorem mem_listInsert {α : Type} [DecidableEq α] (x y : α) (l : List α) :
    x ∈ listInsert y l ↔ x = y ∨ x ∈ l := by
  by_cases h : y ∈ l
  · simp only [listInsert, if_pos h]
    constructor
    · exact Or.inr
    · rintro (rfl | hx)
      · exact h
      · exact hx
  · simp [listInsert, if_neg h, or_comm]

theorem mem_listRemove {α : Type} [DecidableEq α] (x y : α) (l : List α) :
    x ∈ listRemove y l ↔ x ∈ l ∧ x ≠ y := by
  simp [listRemove]

theorem mem_listUnion {α : Type} [DecidableEq α] (x : α) (a b : List α) :
    x ∈ listUnion a b ↔ x ∈ a ∨ x ∈ b := by
  simp only [listUnion, List.mem_append, List.mem_filter, decide_eq_true_eq]
  constructor
  · rintro (h | ⟨h, _⟩)
    · exact Or.inl h
    · exact Or.inr h
  · intro h
    by_cases hx : x ∈ a
    · exact Or.inl hx
    · rcases h with h | h
      · exact Or.inl h
      · exact Or.inr ⟨h, hx⟩

theorem nodup_listUnion {α : Type} [DecidableEq α] (a b : List α)
    (ha : a.Nodup) (hb : b.Nodup) : (listUnion a b).Nodup := by
  refine List.Nodup.append ha (List.Nodup.filter _ hb) ?_
  intro x hx hxa
  simp only [List.mem_filter, decide_eq_true_eq] at hxa
  exact hxa.2 hx

theorem dictGet_mem {k : ReferenceKey} {v : CachedRelation}
    {l : List (ReferenceKey × CachedRelation)} (h : dictGet k l = some v) : (k, v) ∈ l := by
  induction l with
  | nil => simp [dictGet] at h
  | cons p rest ih =>
    obtain ⟨k', v'⟩ := p
    rw [dictGet] at h
    by_cases hk : k' = k
    · rw [if_pos hk] at h
      obtain rfl : v' = v := Option.some.inj h
      subst hk
      exact List.mem_cons_self _ _
    · rw [if_neg hk] at h
      exact List.mem_cons_of_mem _ (ih h)

theorem dictHas_iff_mem_keys (k : ReferenceKey) (l : List (ReferenceKey × CachedRelation)) :
    dictHas k l = true ↔ k ∈ l.map Prod.fst := by
  induction l with
  | nil => simp [dictHas, dictGet]
  | cons p rest ih =>
    obtain ⟨k', v'⟩ := p
    by_cases hk : k' = k
    · subst hk
      simp [dictHas, dictGet]
    · simp only [dictHas, dictGet, if_neg hk, List.map_cons, List.mem_cons]
      rw [dictHas] at ih
      rw [ih]
      constructor
      · exact Or.inr
      · rintro (rfl | h)
        · exact absurd rfl hk
        · exact h

theorem dictGet_mapValues (g : CachedRelation → CachedRelation) (k : ReferenceKey)
    (l : List (ReferenceKey × CachedRelation)) :
    dictGet k (l.map (fun p => (p.1, g p.2))) = (dictGet k l).map g := by
  induction l with
  | nil => simp [dictGet]
  | cons p rest ih =>
    obtain ⟨k', v'⟩ := p
    by_cases hk : k' = k
    · simp [dictGet, if_pos hk]
    · simp only [List.map_cons, dictGet, if_neg hk]
      exact ih

theorem dictGet_filter_key (q : ReferenceKey → Bool) (k : ReferenceKey)
    (l : List (ReferenceKey × CachedRelation)) :
    dictGet k (l.filter (fun p => q p.1)) = if q k then dictGet k l else none := by
  induction l with
  | nil => simp [dictGet]
  | cons p rest ih =>
    obtain ⟨k', v'⟩ := p
    by_cases hq : q k'
    · rw [List.filter_cons_of_pos (by simpa using hq)]
      by_cases hk : k' = k
      · subst hk
        simp [dictGet, hq]
      · rw [dictGet, if_neg hk, dictGet, if_neg hk]
        exact ih
    · rw [List.filter_cons_of_neg (by simpa using hq)]
      by_cases hk : k' = k
      · subst hk
        rw [ih, dictGet, if_pos rfl]
        simp [hq]
      · rw [ih, dictGet, if_neg hk]

theorem dictGet_dictSet_self (k : ReferenceKey) (v : CachedRelation)
    (l : List (ReferenceKey × CachedRelation)) : dictGet k (dictSet k v l) = some v := by
  induction l with
  | nil => simp [dictSet, dictGet]
  | cons p rest ih =>
    obtain ⟨k', v'⟩ := p
    by_cases hk : k' = k
    · rw [dictSet, if_pos hk, dictGet, if_pos rfl]
    · rw [dictSet, if_neg hk, dictGet, if_neg hk]
      exact ih

theorem dictGet_dictSet_other (k k' : ReferenceKey) (v : CachedRelation)
    (l : List (ReferenceKey × CachedRelation)) (h : k' ≠ k) :
    dictGet k' (dictSet k v l) = dictGet k' l := by
  induction l with
  | nil => simp [dictSet, dictGet, Ne.symm h]
  | cons p rest ih =>
    obtain ⟨k₀, v₀⟩ := p
    by_cases hk : k₀ = k
    · subst hk
      rw [dictSet, if_pos rfl, dictGet, if_neg (fun he => h he.symm), dictGet,
        if_neg (fun he => h he.symm)]
    · rw [dictSet, if_neg hk, dictGet, dictGet]
      by_cases hk' : k₀ = k'
      · rw [if_pos hk', if_pos hk']
      · rw [if_neg hk', if_neg hk']
        exact ih

theorem mem_dictSet (p : ReferenceKey × CachedRelation) (k : ReferenceKey)
    (v : CachedRelation) (l : List (ReferenceKey × CachedRelation))
    (h : p ∈ dictSet k v l) : p = (k, v) ∨ p ∈ l := by
  induction l with
  | nil => simpa [dictSet] using h
  | cons q rest ih =>
    obtain ⟨k₀, v₀⟩ := q
    by_cases hk : k₀ = k
    · rw [dictSet, if_pos hk] at h
      rcases List.mem_cons.mp h with h | h
      · exact Or.inl h
      · exact Or.inr (List.mem_cons_of_mem _ h)
    · rw [dictSet, if_neg hk] at h
      rcases List.mem_cons.mp h with h | h
      · exact Or.inr (h ▸ List.mem_cons_self _ _)
      · rcases ih h with h | h
        · exact Or.inl h
        · exact Or.inr (List.mem_cons_of_mem _ h)

theorem mem_dictSetdefault (p : ReferenceKey × CachedRelation) (k : ReferenceKey)
    (v : CachedRelation) (l : List (ReferenceKey × CachedRelation))
    (h : p ∈ dictSetdefault k v l) : p = (k, v) ∨ p ∈ l := by
  unfold dictSetdefault at h
  by_cases hk : dictHas k l
  · rw [if_pos hk] at h
    exact Or.inr h
  · rw [if_neg hk] at h
    rcases List.mem_append.mp h with h | h
    · exact Or.inr h
    · exact Or.inl (by simpa using h)

theorem dictPop_nodup_eq (k : ReferenceKey) (l : List (ReferenceKey × CachedRelation))
    (hnd : (l.map Prod.fst).Nodup) :
    dictPop k l = (dictGet k l).map
      (fun v => (v, l.filter (fun p => decide (p.1 ≠ k)))) := by
  induction l with
  | nil => simp [dictPop, dictGet]
  | cons p rest ih =>
    obtain ⟨k₀, v₀⟩ := p
    rw [List.map_cons, List.nodup_cons] at hnd
    by_cases hk : k₀ = k
    · subst hk
      rw [dictPop, if_pos rfl, dictGet, if_pos rfl]
      have hfilter : rest.filter (fun p => decide (p.1 ≠ k₀)) = rest := by
        apply List.filter_eq_self.mpr
        intro p hp
        simp only [decide_eq_true_eq]
        intro he
        have hm : p.1 ∈ List.map Prod.fst rest := List.mem_map_of_mem Prod.fst hp
        rw [he] at hm
        exact hnd.1 hm
      rw [Option.map_some', List.filter_cons_of_neg (by simp), hfilter]
    · rw [dictPop, if_neg hk, dictGet, if_neg hk, ih hnd.2]
      cases hget : dictGet k rest with
      | none => simp
      | some v =>
        simp only [Option.map_some', Option.some.injEq]
        rw [List.filter_cons_of_pos (by simpa using hk)]

theorem dictPop_sublist (k : ReferenceKey) (l : List (ReferenceKey × CachedRelation))
    (v : CachedRelation) (rest : List (ReferenceKey × CachedRelation))
    (h : dictPop k l = some (v, rest)) : rest.Sublist l := by
  induction l generalizing rest with
  | nil => simp [dictPop] at h
  | cons p tail ih =>
    obtain ⟨k₀, v₀⟩ := p
    rw [dictPop] at h
    by_cases hk : k₀ = k
    · rw [if_pos hk] at h
      cases Option.some.inj h
      exact List.sublist_cons_self _ _
    · rw [if_neg hk] at h
      cases hpop : dictPop k tail with
      | none => rw [hpop] at h; simp at h
      | some q =>
        obtain ⟨v', rest'⟩ := q
        rw [hpop] at h
        simp only [Option.map_some', Option.some.injEq, Prod.mk.injEq] at h
        obtain ⟨rfl, rfl⟩ := h
        exact List.Sublist.cons₂ _ (ih _ hpop)

theorem delAll_sublist (ks : List ReferenceKey) (l l' : List (ReferenceKey × CachedRelation))
    (h : delAll ks l = some l') : l'.Sublist l := by
  induction ks generalizing l with
  | nil =>
    rw [delAll] at h
    exact (Option.some.inj h) ▸ List.Sublist.refl l'
  | cons k ks ih =>
    rw [delAll] at h
    cases hdel : dictDel k l with
    | none => rw [hdel] at h; simp at h
    | some l₁ =>
      rw [hdel] at h
      rw [Option.some_bind] at h
      refine (ih _ h).trans ?_
      unfold dictDel at hdel
      cases hpop : dictPop k l with
      | none => rw [hpop] at hdel; simp at hdel
      | some q =>
        rw [hpop] at hdel
        obtain ⟨v, rest⟩ := q
        have heq : rest = l₁ := by simpa using hdel
        exact heq ▸ dictPop_sublist k l v rest hpop

theorem delAll_eq_filter (ks : List ReferenceKey) (l : List (ReferenceKey × CachedRelation))
    (hks : ks.Nodup) (hall : ∀ k ∈ ks, dictHas k l = true)
    (hnd : (l.map Prod.fst).Nodup) :
    delAll ks l = some (l.filter (fun p => decide (p.1 ∉ ks))) := by
  induction ks generalizing l with
  | nil =>
    rw [delAll]
    congr 1
    exact (List.filter_eq_self.mpr (fun p _ => by simp)).symm
  | cons k ks ih =>
    rw [List.nodup_cons] at hks
    have hhas : dictHas k l = true := hall k (List.mem_cons_self _ _)
    obtain ⟨v, hget⟩ : ∃ v, dictGet k l = some v := by
      rw [dictHas] at hhas
      exact Option.isSome_iff_exists.mp hhas
    have hdel : dictDel k l = some (l.filter (fun p => decide (p.1 ≠ k))) := by
      unfold dictDel
      rw [dictPop_nodup_eq k l hnd, hget]
      rfl
    rw [delAll, hdel, Option.some_bind]
    set l₁ := l.filter (fun p => decide (p.1 ≠ k)) with hl₁
    have hnd₁ : (l₁.map Prod.fst).Nodup :=
      List.Nodup.sublist (List.Sublist.map Prod.fst (List.filter_sublist l)) hnd
    have hall₁ : ∀ k' ∈ ks, dictHas k' l₁ = true := by
      intro k' hk'
      have hne : k' ≠ k := fun he => hks.1 (he ▸ hk')
      rw [dictHas, hl₁, dictGet_filter_key (fun x => decide (x ≠ k)) k' l]
      rw [if_pos (by simpa using hne)]
      exact hall k' (List.mem_cons_of_mem _ hk')
    rw [ih l₁ hks.2 hall₁ hnd₁]
    congr 1
    rw [hl₁, List.filter_filter]
    apply List.filter_congr
    intro p _
    simp only [List.mem_cons, decide_not, Bool.and_comm]
    by_cases h1 : p.1 = k
    · simp [h1]
    · by_cases h2 : p.1 ∈ ks <;> simp [h1, h2]

/-- A cache with no recorded references has no cycle. -/
theorem acyc_of_no_references (s : RelationsCache)
    (h : ∀ p ∈ s.relations, p.2.referenced_by = []) : Acyc s := by
  have hedge : ∀ a b, ¬ Edge s a b := by
    intro a b hab
    rw [Edge, referrer_keys] at hab
    cases hget : dictGet a s.relations with
    | none => rw [hget] at hab; simp at hab
    | some r =>
      rw [hget] at hab
      have hab' : b ∈ r.referenced_by := hab
      have hr : r.referenced_by = [] := h (a, r) (dictGet_mem hget)
      rw [hr] at hab'
      simp at hab'
  intro k hk
  cases hk with
  | single he => exact hedge _ _ he
  | tail _ he => exact hedge _ _ he

/-! ## Lemmas about `collect_step` -/

theorem collect_step_succ (s : RelationsCache) :
    ∀ fuel x out, collect_step s fuel x = some out →
      collect_step s (fuel + 1) x = some out := by
  intro fuel
  induction fuel with
  | zero => intro x out h; simp [collect_step] at h
  | succ f ih =>
    intro x out h
    match x with
    | .inl k =>
      rw [collect_step] at h ⊢
      obtain ⟨rest, hrest, hout⟩ := Option.map_eq_some'.mp h
      rw [ih _ _ hrest]
      simpa using hout
    | .inr [] =>
      rw [collect_step] at h ⊢
      exact h
    | .inr (k :: ks) =>
      rw [collect_step] at h ⊢
      obtain ⟨a, ha, h⟩ := Option.bind_eq_some.mp h
      obtain ⟨b, hb, h⟩ := Option.bind_eq_some.mp h
      refine Option.bind_eq_some.mpr ⟨a, ih _ _ ha, ?_⟩
      refine Option.bind_eq_some.mpr ⟨b, ih _ _ hb, ?_⟩
      exact h

theorem collect_step_mono (s : RelationsCache) {f f' : Nat}
    {x : ReferenceKey ⊕ List ReferenceKey} {out : List ReferenceKey}
    (hle : f ≤ f') (h : collect_step s f x = some out) :
    collect_step s f' x = some out := by
  induction hle with
  | refl => exact h
  | step _ ih => exact collect_step_succ s _ _ _ ih

theorem collect_step_sound (s : RelationsCache) : ∀ fuel : Nat,
    (∀ k out, collect_step s fuel (.inl k) = some out → ∀ x ∈ out, Reach s k x) ∧
    (∀ ks out, collect_step s fuel (.inr ks) = some out →
      ∀ x ∈ out, ∃ k ∈ ks, Reach s k x) := by
  intro fuel
  induction fuel with
  | zero =>
    constructor <;> intro _ out h <;> simp [collect_step] at h
  | succ f ih =>
    constructor
    · intro k out h x hx
      rw [collect_step] at h
      obtain ⟨rest, hrest, hout⟩ := Option.map_eq_some'.mp h
      rw [← hout, mem_listUnion] at hx
      rcases hx with hx | hx
      · obtain rfl : x = k := by simpa using hx
        exact Relation.ReflTransGen.refl
      · obtain ⟨k', hk', hr⟩ := ih.2 _ _ hrest x hx
        exact Relation.ReflTransGen.head hk' hr
    · intro ks out h x hx
      cases ks with
      | nil =>
        rw [collect_step] at h
        obtain rfl : ([] : List ReferenceKey) = out := Option.some.inj h
        simp at hx
      | cons k ks' =>
        rw [collect_step] at h
        obtain ⟨a, ha, h⟩ := Option.bind_eq_some.mp h
        obtain ⟨b, hb, h⟩ := Option.bind_eq_some.mp h
        obtain rfl : listUnion a b = out := Option.some.inj h
        rw [mem_listUnion] at hx
        rcases hx with hx | hx
        · exact ⟨k, List.mem_cons_self _ _, ih.1 _ _ ha x hx⟩
        · obtain ⟨k', hk', hr⟩ := ih.2 _ _ hb x hx
          exact ⟨k', List.mem_cons_of_mem _ hk', hr⟩

theorem collect_step_nodup (s : RelationsCache) :
    ∀ fuel x out, collect_step s fuel x = some out → out.Nodup := by
  intro fuel
  induction fuel with
  | zero => intro x out h; simp [collect_step] at h
  | succ f ih =>
    intro x out h
    match x with
    | .inl k =>
      rw [collect_step] at h
      obtain ⟨rest, hrest, hout⟩ := Option.map_eq_some'.mp h
      rw [← hout]
      exact nodup_listUnion _ _ (List.nodup_singleton k) (ih _ _ hrest)
    | .inr [] =>
      rw [collect_step] at h
      obtain rfl : ([] : List ReferenceKey) = out := Option.some.inj h
      exact List.nodup_nil
    | .inr (k :: ks) =>
      rw [collect_step] at h
      obtain ⟨a, ha, h⟩ := Option.bind_eq_some.mp h
      obtain ⟨b, hb, h⟩ := Option.bind_eq_some.mp h
      obtain rfl : listUnion a b = out := Option.some.inj h
      exact nodup_listUnion _ _ (ih _ _ ha) (ih _ _ hb)

theorem collect_step_mem_self (s : RelationsCache) (fuel : Nat) (k : ReferenceKey)
    (out : List ReferenceKey) (h : collect_step s fuel (.inl k) = some out) : k ∈ out := by
  cases fuel with
  | zero => simp [collect_step] at h
  | succ f =>
    rw [collect_step] at h
    obtain ⟨rest, _, hout⟩ := Option.map_eq_some'.mp h
    rw [← hout, mem_listUnion]
    exact Or.inl (List.mem_singleton.mpr rfl)

theorem collect_step_subset_inr (s : RelationsCache) :
    ∀ fuel ks out, collect_step s fuel (.inr ks) = some out →
      ∀ k ∈ ks, ∃ f' out', f' < fuel ∧ collect_step s f' (.inl k) = some out' ∧
        ∀ x ∈ out', x ∈ out := by
  intro fuel
  induction fuel with
  | zero => intro ks out h; simp [collect_step] at h
  | succ f ih =>
    intro ks out h k hk
    cases ks with
    | nil => simp at hk
    | cons k₀ ks' =>
      rw [collect_step] at h
      obtain ⟨a, ha, h⟩ := Option.bind_eq_some.mp h
      obtain ⟨b, hb, h⟩ := Option.bind_eq_some.mp h
      obtain rfl : listUnion a b = out := Option.some.inj h
      rcases List.mem_cons.mp hk with rfl | hk'
      · exact ⟨f, a, Nat.lt_succ_self f, ha,
          fun x hx => (mem_listUnion x a b).mpr (Or.inl hx)⟩
      · obtain ⟨f', out', hf', hout', hsub⟩ := ih ks' b hb k hk'
        exact ⟨f', out', Nat.lt_succ_of_lt hf', hout',
          fun x hx => (mem_listUnion x a b).mpr (Or.inr (hsub x hx))⟩

theorem collect_step_complete (s : RelationsCache) {k x : ReferenceKey}
    (hr : Reach s k x) :
    ∀ fuel out, collect_step s fuel (.inl k) = some out → x ∈ out := by
  induction hr using Relation.ReflTransGen.head_induction_on with
  | refl => intro fuel out h; exact collect_step_mem_self s fuel x out h
  | head hedge _ ih =>
    intro fuel out h
    cases fuel with
    | zero => simp [collect_step] at h
    | succ f =>
      rw [collect_step] at h
      obtain ⟨rest, hrest, hout⟩ := Option.map_eq_some'.mp h
      obtain ⟨f', out', _, hout', hsub⟩ :=
        collect_step_subset_inr s f _ rest hrest _ hedge
      rw [← hout, mem_listUnion]
      exact Or.inr (hsub x (ih f' out' hout'))

theorem reach_dictHas (s : RelationsCache) (hwf : WfCache s) {k x : ReferenceKey}
    (hk : dictHas k s.relations = true) (hr : Reach s k x) :
    dictHas x s.relations = true := by
  induction hr with
  | refl => exact hk
  | tail _ hedge ih =>
    rw [Edge, referrer_keys] at hedge
    revert hedge
    cases hget : dictGet _ s.relations with
    | none => intro hedge; simp at hedge
    | some r =>
      intro hedge
      have hedge' : _ ∈ r.referenced_by := hedge
      exact hwf.2 _ (dictGet_mem hget) _ hedge'

theorem collect_many_exists (s : RelationsCache) (ks : List ReferenceKey)
    (h : ∀ k ∈ ks, ∃ f out, collect_step s f (.inl k) = some out) :
    ∃ f out, collect_step s f (.inr ks) = some out := by
  induction ks with
  | nil => exact ⟨1, [], rfl⟩
  | cons k ks' ih =>
    obtain ⟨f1, out1, h1⟩ := h k (List.mem_cons_self _ _)
    obtain ⟨f2, out2, h2⟩ := ih (fun k' hk' => h k' (List.mem_cons_of_mem _ hk'))
    refine ⟨max f1 f2 + 1, listUnion out1 out2, ?_⟩
    rw [collect_step]
    refine Option.bind_eq_some.mpr
      ⟨out1, collect_step_mono s (Nat.le_max_left f1 f2) h1, ?_⟩
    exact Option.bind_eq_some.mpr
      ⟨out2, collect_step_mono s (Nat.le_max_right f1 f2) h2, rfl⟩

theorem seen_length_lt_card (L seen : List ReferenceKey) (k : ReferenceKey)
    (hnd : seen.Nodup) (hsub : ∀ x ∈ seen, x ∈ L) (hk : k ∈ L) (hknot : k ∉ seen) :
    seen.length + 1 ≤ L.toFinset.card := by
  have hcons : (k :: seen).Nodup := List.nodup_cons.mpr ⟨hknot, hnd⟩
  have hsubF : (k :: seen).toFinset ⊆ L.toFinset := by
    intro x hx
    rw [List.mem_toFinset] at hx
    rw [List.mem_toFinset]
    rcases List.mem_cons.mp hx with rfl | hx'
    · exact hk
    · exact hsub x hx'
  have hcard : (k :: seen).toFinset.card = seen.length + 1 := by
    rw [List.card_toFinset, List.Nodup.dedup hcons, List.length_cons]
  calc seen.length + 1 = (k :: seen).toFinset.card := hcard.symm
    _ ≤ L.toFinset.card := Finset.card_le_card hsubF

theorem collect_exists_acyc (s : RelationsCache) (hacyc : Acyc s) :
    ∀ (d : Nat) (k : ReferenceKey) (seen : List ReferenceKey),
      (∀ x ∈ seen, Relation.TransGen (Edge s) x k) → seen.Nodup →
      (∀ x ∈ seen, x ∈ s.relations.map Prod.fst) →
      ((s.relations.map Prod.fst).toFinset.card ≤ seen.length + d) →
      ∃ f out, collect_step s f (.inl k) = some out := by
  intro d
  induction d with
  | zero =>
    intro k seen hreach hnd hsub hcard
    cases hrefs : referrer_keys s k with
    | nil =>
      refine ⟨2, listUnion [k] [], ?_⟩
      rw [collect_step, hrefs]
      rfl
    | cons k' ks' =>
      exfalso
      have hget : ∃ r, dictGet k s.relations = some r := by
        rw [referrer_keys] at hrefs
        revert hrefs
        cases hg : dictGet k s.relations with
        | none => intro hrefs; simp at hrefs
        | some r => intro _; exact ⟨r, rfl⟩
      obtain ⟨r, hget⟩ := hget
      have hkL : k ∈ s.relations.map Prod.fst :=
        List.mem_map_of_mem Prod.fst (dictGet_mem hget)
      have hknot : k ∉ seen := by
        intro hkseen
        exact hacyc k (hreach k hkseen)
      have := seen_length_lt_card _ seen k hnd hsub hkL hknot
      omega
  | succ d ih =>
    intro k seen hreach hnd hsub hcard
    cases hrefs : referrer_keys s k with
    | nil =>
      refine ⟨2, listUnion [k] [], ?_⟩
      rw [collect_step, hrefs]
      rfl
    | cons k' ks' =>
      have hget : ∃ r, dictGet k s.relations = some r := by
        rw [referrer_keys] at hrefs
        revert hrefs
        cases hg : dictGet k s.relations with
        | none => intro hrefs; simp at hrefs
        | some r => intro _; exact ⟨r, rfl⟩
      obtain ⟨r, hget⟩ := hget
      have hkL : k ∈ s.relations.map Prod.fst :=
        List.mem_map_of_mem Prod.fst (dictGet_mem hget)
      have hknot : k ∉ seen := by
        intro hkseen
        exact hacyc k (hreach k hkseen)
      have hchild : ∀ kc ∈ referrer_keys s k,
          ∃ f out, collect_step s f (.inl kc) = some out := by
        intro kc hkc
        refine ih kc (k :: seen) ?_ (List.nodup_cons.mpr ⟨hknot, hnd⟩) ?_ ?_
        · intro x hx
          rcases List.mem_cons.mp hx with rfl | hx'
          · exact Relation.TransGen.single hkc
          · exact (hreach x hx').tail hkc
        · intro x hx
          rcases List.mem_cons.mp hx with rfl | hx'
          · exact hkL
          · exact hsub x hx'
        · rw [List.length_cons]
          omega
      obtain ⟨f, out, hout⟩ := collect_many_exists s (referrer_keys s k) hchild
      exact ⟨f + 1, listUnion [k] out, by rw [collect_step, hout]; rfl⟩

/-- On an acyclic reference graph the consequence collection finishes at some
depth. -/
theorem collect_consequences_terminates (s : RelationsCache) (hacyc : Acyc s)
    (k : ReferenceKey) : ∃ f out, collect_consequences s f k = some out :=
  collect_exists_acyc s hacyc (s.relations.map Prod.fst).toFinset.card k []
    (by simp) List.nodup_nil (by simp) (by simp)

/-! ## Divergence of the consequence collection on a cyclic graph -/

theorem collect_step_selfloop_none (s : RelationsCache) (k : ReferenceKey)
    (hloop : k ∈ referrer_keys s k) :
    ∀ fuel, collect_step s fuel (.inl k) = none ∧
      ∀ ks, k ∈ ks → collect_step s fuel (.inr ks) = none := by
  intro fuel
  induction fuel with
  | zero => exact ⟨rfl, fun ks _ => rfl⟩
  | succ f ih =>
    constructor
    · rw [collect_step, ih.2 (referrer_keys s k) hloop]
      rfl
    · intro ks hk
      cases ks with
      | nil => simp at hk
      | cons k₀ ks' =>
        rw [collect_step]
        rcases List.mem_cons.mp hk with rfl | hk'
        · rw [ih.1]
          rfl
        · cases ha : collect_step s f (.inl k₀) with
          | none => rfl
          | some a =>
            simp only [ih.2 ks' hk']
            rfl

theorem collect_diverges_of_selfloop (s : RelationsCache) (k : ReferenceKey)
    (hloop : k ∈ referrer_keys s k) : collect_diverges s k :=
  fun fuel => (collect_step_selfloop_none s k hloop fuel).1

theorem drop_diverges_of_selfloop (s : RelationsCache) (relation : Relation)
    (hloop : make_key relation ∈ referrer_keys s (make_key relation))
    (hhas : dictHas (make_key relation) s.relations = true) :
    drop_diverges s relation := by
  intro fuel
  rw [RelationsCache.drop, drop_cascade_relation, if_neg (by simp [hhas]),
    collect_diverges_of_selfloop s _ hloop fuel]
  rfl

theorem remove_refs_spec (s : RelationsCache) (keys : List ReferenceKey)
    (hnd : (s.relations.map Prod.fst).Nodup) (hknd : keys.Nodup)
    (hall : ∀ k ∈ keys, dictHas k s.relations = true) :
    s.remove_refs keys = some (removed_state s keys) := by
  rw [RelationsCache.remove_refs, delAll_eq_filter keys s.relations hknd hall hnd]
  rfl

theorem drop_cascade_exact (s : RelationsCache) (hwf : WfCache s) (hacyc : Acyc s)
    (k : ReferenceKey) (hhas : dictHas k s.relations = true) :
    ∃ fuel s', drop_cascade_relation fuel s k = some s' ∧ s'.schemas = s.schemas ∧
      ∀ x, dictHas x s'.relations = true ↔
        (dictHas x s.relations = true ∧ ¬ Reach s k x) := by
  obtain ⟨f, out, hout⟩ := collect_consequences_terminates s hacyc k
  have hstep : collect_step s f (.inl k) = some out := hout
  have hnodup : out.Nodup := collect_step_nodup s f _ out hstep
  have hsound : ∀ x ∈ out, Reach s k x := (collect_step_sound s f).1 k out hstep
  have hcompl : ∀ x, Reach s k x → x ∈ out :=
    fun x hr => collect_step_complete s hr f out hstep
  have hallin : ∀ x ∈ out, dictHas x s.relations = true :=
    fun x hx => reach_dictHas s hwf hhas (hsound x hx)
  refine ⟨f, removed_state s out, ?_, rfl, ?_⟩
  · rw [drop_cascade_relation, if_neg (by simp [hhas]), hout, Option.some_bind]
    exact remove_refs_spec s out hwf.1 hnodup hallin
  · intro x
    have h1 : dictGet x ((s.relations.filter (fun p => decide (p.1 ∉ out))).map
        (fun p => (p.1, p.2.release_references out))) =
        (dictGet x (s.relations.filter (fun p => decide (p.1 ∉ out)))).map
          (fun v => v.release_references out) :=
      dictGet_mapValues (fun v => v.release_references out) x _
    rw [removed_state, dictHas, h1,
      dictGet_filter_key (fun y => decide (y ∉ out)) x s.relations]
    by_cases hx : x ∈ out
    · rw [if_neg (by simpa using hx)]
      simp only [Option.map_none', Option.isSome_none]
      constructor
      · intro h; cases h
      · rintro ⟨_, hnr⟩
        exact absurd (hsound x hx) hnr
    · rw [if_pos (by simpa using hx)]
      rw [Option.isSome_map']
      constructor
      · intro h
        exact ⟨h, fun hr => hx (hcompl x hr)⟩
      · rintro ⟨h, _⟩
        exact h

theorem add_reference_inner (r referrer : CachedRelation) :
    (r.add_reference referrer).inner = r.inner := by
  rw [CachedRelation.add_reference]
  by_cases h : referrer.key ∈ r.referenced_by
  · rw [if_pos h]
  · rw [if_neg h]

theorem release_references_inner (r : CachedRelation) (keys : List ReferenceKey) :
    (r.release_references keys).inner = r.inner := rfl

theorem pair_eq_of_inner_eq {a b : CachedRelation} (h : a.inner = b.inner) :
    (a.database, a.schema) = (b.database, b.schema) := by
  rw [CachedRelation.database, CachedRelation.schema, CachedRelation.database,
    CachedRelation.schema, h]

theorem schInv_add_schema (s : RelationsCache) (d sc : Ident) (h : SchInv s) :
    SchInv (s.add_schema d sc) := by
  intro p hp
  rw [RelationsCache.add_schema, mem_listInsert]
  exact Or.inr (h p hp)

theorem schInv_update_schemas (s : RelationsCache) (pairs : List (Ident × Ident))
    (h : SchInv s) : SchInv (s.update_schemas pairs) := by
  induction pairs generalizing s with
  | nil => exact h
  | cons q rest ih =>
    rw [RelationsCache.update_schemas] at *
    exact ih _ (schInv_add_schema s q.1 q.2 h)

theorem schInv_setdefault (s : RelationsCache) (r : CachedRelation) (h : SchInv s) :
    SchInv (s.setdefault r) := by
  intro p hp
  rw [RelationsCache.setdefault] at hp
  have hp' := mem_dictSetdefault p r.key r _ hp
  rw [RelationsCache.setdefault, RelationsCache.add_schema]
  rcases hp' with rfl | hp'
  · rw [mem_listInsert]
    left
    simp [CachedRelation.database, CachedRelation.schema]
  · rw [mem_listInsert]
    exact Or.inr (h p hp')

theorem schInv_add (s : RelationsCache) (relation : Relation) (h : SchInv s) :
    SchInv (s.add relation) :=
  schInv_setdefault s ⟨relation, []⟩ h

theorem schInv_add_link (s : RelationsCache) (referenced dependent : Relation)
    (h : SchInv s) : SchInv (s.add_link referenced dependent).1 := by
  rw [RelationsCache.add_link]
  by_cases hc : s.contains_schema (make_key referenced).database (make_key referenced).schema
  · rw [if_neg (by simp [hc])]
    rw [RelationsCache.add_link_locked]
    cases href : dictGet (make_key referenced) s.relations with
    | none => exact h
    | some referenced_rel =>
      cases hdep : dictGet (make_key dependent) s.relations with
      | none => exact h
      | some dependent_rel =>
        intro p hp
        rcases mem_dictSet p _ _ _ hp with rfl | hp'
        · have hpair := pair_eq_of_inner_eq
            (add_reference_inner referenced_rel dependent_rel)
          rw [hpair]
          exact h _ (dictGet_mem href)
        · exact h p hp'
  · rw [if_pos (by simp [hc])]
    exact h

theorem schInv_remove_refs (s s' : RelationsCache) (keys : List ReferenceKey)
    (hrr : s.remove_refs keys = some s') (h : SchInv s) : SchInv s' := by
  rw [RelationsCache.remove_refs] at hrr
  cases hdel : delAll keys s.relations with
  | none => rw [hdel] at hrr; simp at hrr
  | some rels =>
    rw [hdel] at hrr
    obtain rfl := Option.some.inj hrr.symm
    intro p hp
    simp only [List.mem_map] at hp
    obtain ⟨q, hq, rfl⟩ := hp
    have hqs : q ∈ s.relations := (delAll_sublist keys s.relations rels hdel).subset hq
    have hpair := pair_eq_of_inner_eq (release_references_inner q.2 keys)
    rw [hpair]
    exact h q hqs

theorem schInv_drop (s s' : RelationsCache) (fuel : Nat) (relation : Relation)
    (hdrop : s.drop fuel relation = some s') (h : SchInv s) : SchInv s' := by
  rw [RelationsCache.drop, drop_cascade_relation] at hdrop
  by_cases hhas : dictHas (make_key relation) s.relations
  · rw [if_neg (by simp [hhas])] at hdrop
    cases hcons : collect_consequences s fuel (make_key relation) with
    | none => rw [hcons] at hdrop; simp at hdrop
    | some cons =>
      rw [hcons, Option.some_bind] at hdrop
      exact schInv_remove_refs s s' cons hdrop h
  · rw [if_pos (by simpa using hhas)] at hdrop
    obtain rfl := Option.some.inj hdrop
    exact h

theorem schInv_clear (s : RelationsCache) : SchInv (s.clear) := by
  intro p hp
  simp [RelationsCache.clear] at hp

theorem rename_refs_loop_ok (old_key new_key : ReferenceKey)
    (l : List (ReferenceKey × CachedRelation))
    (hno : ∀ p ∈ l, new_key ∉ p.2.referenced_by) :
    rename_refs_loop old_key new_key l =
      (l.map (fun p => (p.1, rewritten_entry old_key new_key p.2)), none) := by
  induction l with
  | nil => rfl
  | cons p rest ih =>
    obtain ⟨k, r⟩ := p
    have hnew : new_key ∉ r.referenced_by := hno (k, r) (List.mem_cons_self _ _)
    have ihr := ih (fun q hq => hno q (List.mem_cons_of_mem _ hq))
    rw [rename_refs_loop]
    by_cases href : old_key ∈ r.referenced_by
    · have hguard : r.is_referenced_by old_key = true := by
        simp [CachedRelation.is_referenced_by, href]
      have hrk : r.rename_key old_key new_key = Except.ok
          (CachedRelation.mk r.inner (listRemove old_key r.referenced_by ++ [new_key])) := by
        rw [CachedRelation.rename_key, if_neg hnew, if_neg (by simp [href])]
      rw [hguard]
      simp only [if_pos, hrk, ihr, List.map_cons]
      rw [rewritten_entry, if_pos href]
    · have hguard : r.is_referenced_by old_key = false := by
        simp [CachedRelation.is_referenced_by, href]
      rw [hguard]
      simp only [Bool.false_eq_true, if_false, ihr, List.map_cons]
      rw [rewritten_entry, if_neg href]

theorem rename_relation_ok (s : RelationsCache) (old_key : ReferenceKey)
    (nrel rel0 : CachedRelation)
    (hnd : (s.relations.map Prod.fst).Nodup)
    (hget : dictGet old_key s.relations = some rel0)
    (hno : ∀ p ∈ s.relations, nrel.key ∉ p.2.referenced_by) :
    s.rename_relation old_key nrel = (renamed_state s old_key nrel rel0, none) := by
  rw [RelationsCache.rename_relation, dictPop_nodup_eq old_key s.relations hnd, hget]
  have hno' : ∀ p ∈ s.relations.filter (fun p => decide (p.1 ≠ old_key)),
      nrel.key ∉ p.2.referenced_by :=
    fun p hp => hno p (List.mem_of_mem_filter hp)
  simp only [Option.map_some']
  rw [rename_refs_loop_ok old_key nrel.key _ hno']
  rfl

theorem dictGet_eq_none (k : ReferenceKey) (l : List (ReferenceKey × CachedRelation))
    (h : dictHas k l = false) : dictGet k l = none := by
  rw [dictHas] at h
  cases hg : dictGet k l with
  | none => rfl
  | some v => rw [hg] at h; simp at h

theorem make_key_database (r : Relation) : (make_key r).database = lowerId r.database := rfl

theorem make_key_schema (r : Relation) : (make_key r).schema = lowerId r.schema := rfl

/-! ## The claims -/

/-- C4: for every cache state, `rename(old, new)` with `new` already present
in `relations` raises a consistency error and leaves the entire cache state
(`relations` and `schemas`) exactly as it was before the call. -/
theorem claim_c4_rename_collision_unchanged (s : RelationsCache) (old new : Relation)
    (hnew : dictHas (make_key new) s.relations = true) :
    s.rename old new = (s, some (.inconsistent .renameNewKeyExists)) := by
  rw [RelationsCache.rename, RelationsCache.check_rename_constraints,
    if_pos (by simp [hnew])]

theorem claim_c4_rename_collision_unchanged_witness :
    dictHas (make_key fixB) fix_state.relations = true ∧
    fix_state.rename fixA fixB =
      (fix_state, some (.inconsistent .renameNewKeyExists)) :=
  ⟨by decide, claim_c4_rename_collision_unchanged fix_state fixA fixB (by decide)⟩

/-- C6: `add_link(referenced, dependent)` is asymmetric: when the referenced
relation's (database, schema) is not a known schema the call returns with no
edge added and no error; when that schema is known but the dependent relation
is unregistered the call raises a consistency error. -/
theorem claim_c6_add_link_asymmetry (s : RelationsCache) (referenced dependent : Relation) :
    (s.contains_schema (make_key referenced).database (make_key referenced).schema = false →
      s.add_link referenced dependent = (s, none)) ∧
    (s.contains_schema (make_key referenced).database (make_key referenced).schema = true →
      dictHas (make_key dependent) s.relations = false →
      ∃ e : CacheErr, s.add_link referenced dependent = (s, some e)) := by
  constructor
  · intro h
    rw [RelationsCache.add_link, if_pos (by simp [RelationsCache.contains_schema] at h ⊢; exact h)]
  · intro h hdep
    rw [RelationsCache.add_link,
      if_neg (by simp [RelationsCache.contains_schema] at h ⊢; exact h),
      RelationsCache.add_link_locked]
    cases href : dictGet (make_key referenced) s.relations with
    | none => exact ⟨.addLinkReferencedMissing, rfl⟩
    | some r =>
      rw [dictGet_eq_none _ _ hdep]
      exact ⟨.addLinkDependentMissing, rfl⟩

theorem claim_c6_add_link_asymmetry_witness :
    (fix_state.contains_schema (make_key fixOutside).database
        (make_key fixOutside).schema = false ∧
      fix_state.add_link fixOutside fixA = (fix_state, none)) ∧
    (fix_state.contains_schema (make_key fixA).database (make_key fixA).schema = true ∧
      dictHas (make_key fixMissing) fix_state.relations = false ∧
      ∃ e : CacheErr, fix_state.add_link fixA fixMissing = (fix_state, some e)) :=
  ⟨⟨by decide, (claim_c6_add_link_asymmetry fix_state fixOutside fixA).1 (by decide)⟩,
   ⟨by decide, by decide,
    (claim_c6_add_link_asymmetry fix_state fixA fixMissing).2 (by decide) (by decide)⟩⟩

/-- C10: `add_link(referenced, dependent)` raises a consistency error when the
referenced relation's (database, schema) is a known schema but the referenced
relation itself is unregistered — the silent-skip path applies only to unknown
schemas. -/
theorem claim_c10_add_link_referenced_missing (s : RelationsCache)
    (referenced dependent : Relation)
    (hsch : s.contains_schema (make_key referenced).database
      (make_key referenced).schema = true)
    (href : dictHas (make_key referenced) s.relations = false) :
    s.add_link referenced dependent = (s, some .addLinkReferencedMissing) := by
  rw [RelationsCache.add_link,
    if_neg (by simp [RelationsCache.contains_schema] at hsch ⊢; exact hsch),
    RelationsCache.add_link_locked, dictGet_eq_none _ _ href]

theorem claim_c10_add_link_referenced_missing_witness :
    bare_schema_state.contains_schema (make_key bareRef).database
        (make_key bareRef).schema = true ∧
    dictHas (make_key bareRef) bare_schema_state.relations = false ∧
    bare_schema_state.add_link bareRef bareDep =
      (bare_schema_state, some .addLinkReferencedMissing) :=
  ⟨by decide, by decide,
   claim_c10_add_link_referenced_missing bare_schema_state bareRef bareDep
     (by decide) (by decide)⟩

/-- C8: a runner whose skip flag is set returns a skip-status result from
`run_with_hooks` and enters none of the before-hook, compile, execute, or
after-hook phases. -/
theorem claim_c8_skip_short_circuit (r : BaseRunner) (b : Behavior)
    (h : r.skip = true) :
    r.run_with_hooks b = (.ok r.on_skip, []) ∧ r.on_skip.skip = true := by
  constructor
  · rw [BaseRunner.run_with_hooks, if_pos (by simp [h])]
  · rfl

theorem claim_c8_skip_short_circuit_witness :
    (BaseRunner.mk runRegNode true (some failedRegResult)).skip = true ∧
    (BaseRunner.mk runRegNode true (some failedRegResult)).run_with_hooks benignBehavior =
      (.ok (BaseRunner.mk runRegNode true (some failedRegResult)).on_skip, []) ∧
    (BaseRunner.mk runRegNode true (some failedRegResult)).on_skip.skip = true := by
  refine ⟨rfl, ?_⟩
  exact claim_c8_skip_short_circuit (BaseRunner.mk runRegNode true (some failedRegResult))
    benignBehavior rfl

/-- C3: refuted by the code — at the failing inputs, `safe_run` does not
return a result at all.  When the connection release fails while `result` is
`None` (the attempt raised, or the task was ephemeral so no execution result
exists), the `finally` block reads `result.error` off `None` and the
`AttributeError` escapes `safe_run`; the release failure is surfaced as the
result error only on the path where a real execution result exists. -/
theorem claim_c3_safe_run_attribute_error :
    (safe_run runEphNode releaseFailEphBehavior).1 =
      .error .attributeErrorNoneHasNoError ∧
    (safe_run runRegNode releaseFailRaiseBehavior).1 =
      .error .attributeErrorNoneHasNoError ∧
    (safe_run runRegNode releaseFailOkBehavior).1 =
      .ok (error_result (some runRegNode) "release failed") ∧
    (safe_run runEphNode (Behavior.mk none (.ok runEphNode) (.ok okRegResult) none)).1 =
      .ok (ephemeral_result (some runEphNode) [.compilePhase]) :=
  ⟨rfl, rfl, rfl, rfl⟩

/-- C9 is refuted as stated: `_skip_caused_by_ephemeral_failure` tests only
`skip_cause.node.is_ephemeral_model`, so the escalation does not require a
compile failure.  `acqFailEphResult` is the result `safe_run` actually
returns for an ephemeral dependency whose `acquire_connection` raised — a
failure of the dependency with its compile outcome `ok` — and
`ephSkipResult` is an ephemeral dependency's own error-free skip result; a
non-ephemeral runner skipped with either stored cause still gets an
error-carrying skip result, where the claim demands a plain skip for any
cause that is not an ephemeral dependency's compile failure. -/
theorem claim_c9_counterexample :
    (safe_run runEphNode acqFailBehavior).1 = .ok acqFailEphResult ∧
    acqFailBehavior.compileOutcome = .ok runEphNode ∧
    acqFailEphResult.error ≠ none ∧
    (BaseRunner.mk runRegNode true (some acqFailEphResult)).on_skip.error ≠ none ∧
    (BaseRunner.mk runEphNode true none).on_skip = ephSkipResult ∧
    ephSkipResult.error = none ∧
    (BaseRunner.mk runRegNode true (some ephSkipResult)).on_skip.error ≠ none :=
  ⟨rfl, rfl, by decide, by decide, rfl, rfl, by decide⟩

/-- C9 (amended): for a non-ephemeral runner, the skip result carries an
error if and only if the stored cause has a node and that node is
ephemeral — whatever kind of result the cause is (a compile failure, any
other failure, or an error-free skip); a skip with no stored cause, a cause
with no node, or a cause with a non-ephemeral node is a plain skip whose
result has no error. -/
theorem claim_c9_skip_error_ephemeral_node (r : BaseRunner) (c : RunModelResult)
    (n : Node) (hne : r.node.is_ephemeral_model = false) :
    (r.skip_cause = none → r.on_skip.error = none) ∧
    (r.skip_cause = some c → c.node = none → r.on_skip.error = none) ∧
    (r.skip_cause = some c → c.node = some n → n.is_ephemeral_model = false →
      r.on_skip.error = none) ∧
    (r.skip_cause = some c → c.node = some n → n.is_ephemeral_model = true →
      r.on_skip.error = some (skip_error_text r)) := by
  refine ⟨?_, ?_, ?_, ?_⟩
  · intro hc
    rw [BaseRunner.on_skip, if_neg (by simp [hne]),
      if_neg (by simp [BaseRunner.skip_caused_by_ephemeral_failure, hc])]
  · intro hc hn
    rw [BaseRunner.on_skip, if_neg (by simp [hne]),
      if_neg (by simp [BaseRunner.skip_caused_by_ephemeral_failure, hc, hn])]
  · intro hc hn hep
    rw [BaseRunner.on_skip, if_neg (by simp [hne]),
      if_neg (by simp [BaseRunner.skip_caused_by_ephemeral_failure, hc, hn, hep])]
  · intro hc hn hep
    rw [BaseRunner.on_skip, if_neg (by simp [hne]),
      if_pos (by simp [BaseRunner.skip_caused_by_ephemeral_failure, hc, hn, hep])]

theorem claim_c9_skip_error_ephemeral_node_witness :
    (BaseRunner.mk runRegNode true (some failedEphResult)).node.is_ephemeral_model
        = false ∧
    (BaseRunner.mk runRegNode true (some failedEphResult)).on_skip.error =
      some (skip_error_text (BaseRunner.mk runRegNode true (some failedEphResult))) ∧
    (BaseRunner.mk runRegNode true (some failedRegResult)).on_skip.error = none ∧
    (BaseRunner.mk runRegNode true none).on_skip.error = none := by
  refine ⟨rfl, ?_, ?_, ?_⟩
  · exact (claim_c9_skip_error_ephemeral_node
      (BaseRunner.mk runRegNode true (some failedEphResult)) failedEphResult
      runEphNode rfl).2.2.2 rfl rfl rfl
  · exact (claim_c9_skip_error_ephemeral_node
      (BaseRunner.mk runRegNode true (some failedRegResult)) failedRegResult
      runRegNode rfl).2.2.1 rfl rfl rfl
  · exact (claim_c9_skip_error_ephemeral_node
      (BaseRunner.mk runRegNode true none) failedRegResult
      runRegNode rfl).1 rfl

/-- C1 (amended): on a well-formed cache state whose reference graph is
acyclic, `drop(R)` with `R` registered removes from `relations` exactly `R`
together with everything transitively linked to it over `referenced_by`
(leaving `schemas` untouched), and `drop` of an absent relation returns the
state unchanged at every recursion depth.  The acyclicity proviso is forced:
on a cyclic graph the consequence recursion never finishes (see the
counterexample). -/
theorem claim_c1_drop_cascade_exact (s : RelationsCache) (r : Relation)
    (hwf : WfCache s) (hacyc : Acyc s) :
    (dictHas (make_key r) s.relations = false → ∀ fuel, s.drop fuel r = some s) ∧
    (dictHas (make_key r) s.relations = true →
      ∃ fuel s', s.drop fuel r = some s' ∧ s'.schemas = s.schemas ∧
        ∀ k, dictHas k s'.relations = true ↔
          (dictHas k s.relations = true ∧ ¬ Reach s (make_key r) k)) := by
  constructor
  · intro h fuel
    rw [RelationsCache.drop, drop_cascade_relation, if_pos (by simp [h])]
  · intro h
    obtain ⟨fuel, s', h1, h2, h3⟩ := drop_cascade_exact s hwf hacyc (make_key r) h
    refine ⟨fuel, s', ?_, h2, h3⟩
    rw [RelationsCache.drop]
    exact h1

theorem claim_c1_drop_cascade_exact_witness :
    WfCache fix_state ∧ Acyc fix_state ∧
    fix_state.drop 3 fixMissing = some fix_state ∧
    dictHas (make_key fixA) fix_state.relations = true ∧
    (∃ fuel s', fix_state.drop fuel fixA = some s' ∧ s'.schemas = fix_state.schemas ∧
      ∀ k, dictHas k s'.relations = true ↔
        (dictHas k fix_state.relations = true ∧ ¬ Reach fix_state (make_key fixA) k)) := by
  have hwf : WfCache fix_state := by decide
  have hacyc : Acyc fix_state := acyc_of_no_references fix_state (by decide)
  exact ⟨hwf, hacyc,
    (claim_c1_drop_cascade_exact fix_state fixMissing hwf hacyc).1 (by decide) 3,
    by decide,
    (claim_c1_drop_cascade_exact fix_state fixA hwf hacyc).2 (by decide)⟩

/-- C1 is refuted as stated: on the cache state that `add_link(R, R)` builds
(a legal call: both arguments registered, schema known), `R` is registered
yet `drop(R)` finishes at no recursion depth, so it neither removes the
closure nor leaves the cache unchanged. -/
theorem claim_c1_counterexample :
    dictHas (make_key loopyRel) loopy_state.relations = true ∧
    loopy_state =
      (((RelationsCache.empty.add_schema (some "db") (some "s")).add loopyRel).add_link
        loopyRel loopyRel).1 ∧
    drop_diverges loopy_state loopyRel :=
  ⟨by decide, by decide,
   drop_diverges_of_selfloop loopy_state loopyRel (by decide) (by decide)⟩

/-- C2 (amended): the consequence-set computation used by `drop` terminates on
every acyclic reference graph; the Python recursion carries no visited set, so
a cyclic reference graph makes it recurse without bound (see the
counterexample) rather than terminate. -/
theorem claim_c2_collect_terminates_acyclic (s : RelationsCache) (k : ReferenceKey)
    (hacyc : Acyc s) : ∃ fuel out, collect_consequences s fuel k = some out :=
  collect_consequences_terminates s hacyc k

theorem claim_c2_collect_terminates_acyclic_witness :
    Acyc fix_state ∧
    ∃ fuel out, collect_consequences fix_state fuel (make_key fixA) = some out := by
  have hacyc : Acyc fix_state := acyc_of_no_references fix_state (by decide)
  exact ⟨hacyc, claim_c2_collect_terminates_acyclic fix_state (make_key fixA) hacyc⟩

/-- C2 is refuted as stated: on the self-referencing state that
`add_link(R, R)` builds, the consequence collection finishes at no recursion
depth — there is no growing visited set in the code. -/
theorem claim_c2_counterexample :
    loopx_state =
      (((RelationsCache.empty.add_schema (some "db") (some "s")).add loopxRel).add_link
        loopxRel loopxRel).1 ∧
    collect_diverges loopx_state (make_key loopxRel) :=
  ⟨by decide, collect_diverges_of_selfloop loopx_state (make_key loopxRel) (by decide)⟩

/-- C7 (amended): the schema invariant — every registered relation's
(database, schema) pair is a known schema — is established by `add` (and the
rename-as-add path) and preserved by `add`, `add_schema`, `update_schemas`,
`add_link`, `drop` and `clear`; a successful rename of a registered relation
is not covered, because it removes the old schema pair unconditionally (see
the counterexample), and `remove_schema` can likewise remove a pair in use. -/
theorem claim_c7_schema_invariant (s : RelationsCache) (h : SchInv s) :
    (∀ relation, SchInv (s.add relation)) ∧
    (∀ d sc, SchInv (s.add_schema d sc)) ∧
    (∀ pairs, SchInv (s.update_schemas pairs)) ∧
    (∀ referenced dependent, SchInv (s.add_link referenced dependent).1) ∧
    (∀ fuel relation s', s.drop fuel relation = some s' → SchInv s') ∧
    SchInv s.clear ∧
    (∀ old new, dictHas (make_key old) s.relations = false →
      SchInv (s.rename old new).1) := by
  refine ⟨fun relation => schInv_add s relation h,
    fun d sc => schInv_add_schema s d sc h,
    fun pairs => schInv_update_schemas s pairs h,
    fun referenced dependent => schInv_add_link s referenced dependent h,
    fun fuel relation s' hd => schInv_drop s s' fuel relation hd h,
    schInv_clear s, ?_⟩
  intro old new hold
  rw [RelationsCache.rename, RelationsCache.check_rename_constraints]
  by_cases hn : dictHas (make_key new) s.relations = true
  · rw [if_pos (by simp [hn])]
    exact h
  · rw [if_neg (by simpa using hn), if_pos (by simp [hold])]
    exact schInv_setdefault s ⟨new, []⟩ h

theorem claim_c7_schema_invariant_witness :
    SchInv fix_state ∧ SchInv (fix_state.add fixMissing) ∧
    SchInv (fix_state.add_link fixA fixB).1 := by
  have h : SchInv fix_state := by decide
  exact ⟨h, (claim_c7_schema_invariant fix_state h).1 fixMissing,
    (claim_c7_schema_invariant fix_state h).2.2.2.1 fixA fixB⟩

/-- C7 is refuted as stated: renaming `invD` out of schema `t` succeeds and
breaks the invariant, because the cache unconditionally removes `t` from the
known schemas while `invE` (still registered) lives in `t`. -/
theorem claim_c7_counterexample :
    SchInv inv_state ∧ (inv_state.rename invD invF).2 = none ∧
    ¬ SchInv (inv_state.rename invD invF).1 :=
  ⟨by decide, by decide, by decide⟩

/-- C5 is refuted as stated: after the successful rename of `cexOld` into
schema `p2`, the relation `cexKeep` remains registered with `cexOld`'s
(database, schema) pair, yet that pair is no longer in the known-schemas set —
the code removes the old pair unconditionally, not merely when no remaining
relation references it. -/
theorem claim_c5_counterexample :
    (cex5_state.rename cexOld cexNew).2 = none ∧
    dictGet (make_key cexKeep) (cex5_state.rename cexOld cexNew).1.relations =
      some ⟨cexKeep, []⟩ ∧
    (make_key cexKeep).database = (make_key cexOld).database ∧
    (make_key cexKeep).schema = (make_key cexOld).schema ∧
    ((make_key cexOld).database, (make_key cexOld).schema) ∉
      (cex5_state.rename cexOld cexNew).1.schemas :=
  ⟨by decide, by decide, by decide, by decide, by decide⟩

theorem lowerId_make_key_database (r : Relation) :
    lowerId (make_key r).database = (make_key r).database := by
  rw [make_key_database, lowerId_idem]

theorem lowerId_make_key_schema (r : Relation) :
    lowerId (make_key r).schema = (make_key r).schema := by
  rw [make_key_schema, lowerId_idem]

/-- C5 (amended): after a successful `rename(old, new)` (`old` present, `new`
absent, state well-formed), every other relation whose `referenced_by`
contained `old`'s key now contains `new`'s key and no longer `old`'s; `new`'s
(database, schema) is known; but `old`'s (database, schema) is removed from
the known schemas unconditionally — it remains exactly when it equals `new`'s
pair, regardless of the remaining relations (see the counterexample). -/
theorem claim_c5_rename_updates (s : RelationsCache) (old new : Relation)
    (hwf : WfCache s)
    (hold : dictHas (make_key old) s.relations = true)
    (hnew : dictHas (make_key new) s.relations = false) :
    (s.rename old new).2 = none ∧
    (∀ k rold, k ≠ make_key old → dictGet k s.relations = some rold →
      ∃ r', dictGet k (s.rename old new).1.relations = some r' ∧
        (make_key old ∈ rold.referenced_by →
          (make_key new ∈ r'.referenced_by ∧ make_key old ∉ r'.referenced_by))) ∧
    ((make_key new).database, (make_key new).schema) ∈ (s.rename old new).1.schemas ∧
    (((make_key old).database, (make_key old).schema) ∈ (s.rename old new).1.schemas ↔
      ((make_key old).database, (make_key old).schema) =
        ((make_key new).database, (make_key new).schema)) := by
  obtain ⟨rel0, hget⟩ : ∃ v, dictGet (make_key old) s.relations = some v := by
    rw [dictHas] at hold
    exact Option.isSome_iff_exists.mp hold
  have hkey : (CachedRelation.mk new []).key = make_key new := by simp
  have honk : make_key old ≠ make_key new := by
    intro he
    rw [he] at hold
    rw [hold] at hnew
    cases hnew
  have hno : ∀ p ∈ s.relations, (CachedRelation.mk new []).key ∉ p.2.referenced_by := by
    intro p hp hmem
    rw [hkey] at hmem
    have hhas := hwf.2 p hp _ hmem
    rw [hnew] at hhas
    cases hhas
  have hren := rename_relation_ok s (make_key old) ⟨new, []⟩ rel0 hwf.1 hget hno
  have hrw : s.rename old new =
      (renamed_state s (make_key old) ⟨new, []⟩ rel0, none) := by
    rw [RelationsCache.rename, RelationsCache.check_rename_constraints,
      if_neg (by simp [hnew]), if_neg (by simp [hold])]
    exact hren
  refine ⟨by rw [hrw], ?_, ?_, ?_⟩
  · intro k rold hkold hgetk
    have hknew : k ≠ make_key new := by
      intro he
      rw [he] at hgetk
      have : dictHas (make_key new) s.relations = true := by
        rw [dictHas, hgetk]
        rfl
      rw [hnew] at this
      cases this
    rw [hrw]
    refine ⟨rewritten_entry (make_key old) (CachedRelation.mk new []).key rold, ?_, ?_⟩
    · show dictGet k (renamed_state s (make_key old) ⟨new, []⟩ rel0).relations = _
      rw [renamed_state]
      rw [dictGet_dictSet_other _ _ _ _ (by rw [hkey]; exact hknew)]
      rw [dictGet_mapValues (rewritten_entry (make_key old) (CachedRelation.mk new []).key) k _]
      rw [dictGet_filter_key (fun y => decide (y ≠ make_key old)) k s.relations,
        if_pos (by simpa using hkold), hgetk]
      rfl
    · intro hmem
      rw [rewritten_entry, if_pos hmem, hkey]
      constructor
      · exact List.mem_append.mpr (Or.inr (List.mem_singleton.mpr rfl))
      · intro habs
        rcases List.mem_append.mp habs with hin | hin
        · exact ((mem_listRemove _ _ _).mp hin).2 rfl
        · exact honk (List.mem_singleton.mp hin)
  · rw [hrw]
    show _ ∈ (renamed_state s (make_key old) ⟨new, []⟩ rel0).schemas
    rw [renamed_state, hkey, mem_listInsert]
    left
    rw [lowerId_make_key_database, lowerId_make_key_schema]
  · rw [hrw]
    show _ ∈ (renamed_state s (make_key old) ⟨new, []⟩ rel0).schemas ↔ _
    rw [renamed_state, hkey, mem_listInsert, mem_listRemove,
      lowerId_make_key_database new, lowerId_make_key_schema new,
      lowerId_make_key_database old, lowerId_make_key_schema old]
    constructor
    · rintro (he | ⟨_, hne⟩)
      · exact he
      · exact absurd rfl hne
    · intro he
      left
      exact he

theorem claim_c5_rename_updates_witness :
    WfCache ren_state ∧
    dictHas (make_key renOld) ren_state.relations = true ∧
    dictHas (make_key renNew) ren_state.relations = false ∧
    ((ren_state.rename renOld renNew).2 = none ∧
      (∀ k rold, k ≠ make_key renOld → dictGet k ren_state.relations = some rold →
        ∃ r', dictGet k (ren_state.rename renOld renNew).1.relations = some r' ∧
          (make_key renOld ∈ rold.referenced_by →
            (make_key renNew ∈ r'.referenced_by ∧
              make_key renOld ∉ r'.referenced_by))) ∧
      ((make_key renNew).database, (make_key renNew).schema) ∈
        (ren_state.rename renOld renNew).1.schemas ∧
      (((make_key renOld).database, (make_key renOld).schema) ∈
          (ren_state.rename renOld renNew).1.schemas ↔
        ((make_key renOld).database, (make_key renOld).schema) =
          ((make_key renNew).database, (make_key renNew).schema))) :=
  ⟨by decide, by decide, by decide,
   claim_c5_rename_updates ren_state renOld renNew (by decide) (by decide) (by decide)⟩

